import Mathlib

/-!
Verification of the text-spacing normalizer, the path-resolution wrapper and
the folder-comparison helper of this repository, against their
natural-language specification.  Strings are modelled as `List Char`; each
regular-expression substitution pass of `normalize_spacing` is embedded as an
executable single-pass scanner with the leftmost, non-overlapping,
greedy-run semantics of `re.sub`.  External collaborators (the pangu
spacer, `Path.resolve`, `os.walk`) are modelled as injected function or
data parameters, as the spec itself treats them.
-/

namespace VibeWorking

/-- The whitespace the substitution patterns target: a plain space or a tab
(the regex class of a space and a tab). -/
def isSpTab (c : Char) : Bool := c == ' ' || c == '\t'

/-- The CJK character class `_CJK_RANGES` of the source: the union of the
fifteen enumerated Unicode ranges. -/
def isCJK (c : Char) : Bool :=
  let n := c.toNat
  (0x4e00 ≤ n && n ≤ 0x9fff) ||
  (0x3400 ≤ n && n ≤ 0x4dbf) ||
  (0xf900 ≤ n && n ≤ 0xfaff) ||
  (0x3040 ≤ n && n ≤ 0x309f) ||
  (0x30a0 ≤ n && n ≤ 0x30ff) ||
  (0xac00 ≤ n && n ≤ 0xd7af) ||
  (0x20000 ≤ n && n ≤ 0x2a6df) ||
  (0x2a700 ≤ n && n ≤ 0x2b73f) ||
  (0x2b740 ≤ n && n ≤ 0x2b81f) ||
  (0x2b820 ≤ n && n ≤ 0x2ceaf) ||
  (0x2ceb0 ≤ n && n ≤ 0x2ebef) ||
  (0x30000 ≤ n && n ≤ 0x3134f) ||
  (0x31350 ≤ n && n ≤ 0x323af) ||
  (0x2ebf0 ≤ n && n ≤ 0x2ee5f) ||
  (0x2f800 ≤ n && n ≤ 0x2fa1f)

/-- The full-width punctuation set `_FULLWIDTH_PUNCT` (duplicates of the
source literal dropped; a regex character class is a set). -/
def fullwidthPunct : List Char :=
  ['，', '、', '。', '？', '！', '；', '：', '·', '“', '”', '‘', '’', '—',
   '【', '】', '〖', '〗', '《', '》', '「', '」', '（', '）', '〔', '〕',
   '〈', '〉', '…']

/-- The half-width punctuation set `_HALF_PUNCT`.  In the Python source the
argument is two adjacent string literals, so the set is
`,.!?@#$%^&*+={}\|;:~-`…''[]<>()` — the ASCII double quote is NOT in it. -/
def halfPunct : List Char :=
  [',', '.', '!', '?', '@', '#', '$', '%', '^', '&', '*', '+', '=', '{',
   '}', '\\', '|', ';', ':', '~', '-', '`', '…', '\'', '[', ']', '<', '>',
   '(', ')']

/-- `_PAIR_OPENERS`. -/
def pairOpeners : List Char :=
  ['(', '[', '{', '（', '〔', '【', '《', '〈', '「', '『', '〖', '〘',
   '〚', '“', '‘', '\"', '\'']

/-- `_PAIR_CLOSERS`. -/
def pairClosers : List Char :=
  [')', ']', '}', '）', '〕', '】', '》', '〉', '」', '』', '〗', '〙',
   '〛', '”', '’', '\"', '\'']

def isFullPunct (c : Char) : Bool := fullwidthPunct.contains c
def isHalfPunct (c : Char) : Bool := halfPunct.contains c
/-- The combined class `[_FULLWIDTH_PUNCT _HALF_PUNCT]` used by several
patterns. -/
def isPunct (c : Char) : Bool := isFullPunct c || isHalfPunct c
def isOpener (c : Char) : Bool := pairOpeners.contains c
def isCloser (c : Char) : Bool := pairClosers.contains c

/-- The keys of the `_SPACE_NORMALIZATION` translation table (all map to a
plain space). -/
def spaceVariants : List Char :=
  [' ', ' ', ' ', ' ', ' ', ' ', ' ',
   ' ', ' ', ' ', ' ', ' ', ' ', ' ',
   ' ', ' ', ' ', '　']

/-- `str.translate(_SPACE_NORMALIZATION)`, characterwise. -/
def translateChar (c : Char) : Char := if spaceVariants.contains c then ' ' else c

/-- The space-variant unification pass (`text.translate(_SPACE_NORMALIZATION)`). -/
def translatePass (l : List Char) : List Char := l.map translateChar

/-- Python `str.isspace` on a single character, the whitespace notion of
`str.strip()`. -/
def pyIsSpace (c : Char) : Bool :=
  let n := c.toNat
  (0x9 ≤ n && n ≤ 0xd) || (0x1c ≤ n && n ≤ 0x20) || n == 0x85 ||
  n == 0xa0 || n == 0x1680 || (0x2000 ≤ n && n ≤ 0x200a) ||
  n == 0x2028 || n == 0x2029 || n == 0x202f || n == 0x205f || n == 0x3000

/-- Python `str.strip()`: drop leading and trailing whitespace. -/
def pyStrip (l : List Char) : List Char :=
  ((l.dropWhile pyIsSpace).reverse.dropWhile pyIsSpace).reverse

/-!
### The three substitution-pass shapes

`re.sub` scans left to right, takes the leftmost match, and resumes after
the end of the replaced match.  All patterns of the source are built from a
character class, a greedy run of spaces and tabs, and possibly a second
character class; the three scanners below implement exactly those shapes.
-/

/-- Scanner for patterns `(A)([ \t]+)(B)` with replacement of the match by
the two class characters.  `elig` records that the previously emitted
character is in `A` and may start a match (a `B` consumed by a match may
not, matches being non-overlapping); `run` holds the pending space/tab run
following that character. -/
def subABGo (pA pB : Char → Bool) : List Char → Bool → List Char → List Char
  | [], _, run => run
  | c :: rest, elig, run =>
    if isSpTab c then
      if elig then subABGo pA pB rest true (run ++ [c])
      else run ++ c :: subABGo pA pB rest false []
    else if elig && !run.isEmpty && pB c then c :: subABGo pA pB rest false []
    else run ++ c :: subABGo pA pB rest (pA c) []

/-- One full `re.sub` pass for a pattern `(A)([ \t]+)(B) -> \1\3`. -/
def subAB (pA pB : Char → Bool) (l : List Char) : List Char :=
  subABGo pA pB l false []

/-- Scanner for patterns `(A)([ \t]+) -> \1`: every maximal space/tab run
immediately after an `A` character is deleted. -/
def subASpGo (pA : Char → Bool) : List Char → Bool → List Char
  | [], _ => []
  | c :: rest, elig =>
    if isSpTab c then
      if elig then subASpGo pA rest true
      else c :: subASpGo pA rest false
    else c :: subASpGo pA rest (pA c)

/-- One full `re.sub` pass for a pattern `(A)([ \t]+) -> \1`. -/
def subASp (pA : Char → Bool) (l : List Char) : List Char :=
  subASpGo pA l false

/-- Scanner for patterns `([ \t]+)(B) -> \2`: every maximal space/tab run
immediately before a `B` character is deleted (`run` is the pending run). -/
def subSpBGo (pB : Char → Bool) : List Char → List Char → List Char
  | [], run => run
  | c :: rest, run =>
    if isSpTab c then subSpBGo pB rest (run ++ [c])
    else if !run.isEmpty && pB c then c :: subSpBGo pB rest []
    else run ++ c :: subSpBGo pB rest []

/-- One full `re.sub` pass for a pattern `([ \t]+)(B) -> \2`. -/
def subSpB (pB : Char → Bool) (l : List Char) : List Char :=
  subSpBGo pB l []

/-- Scanner for run collapsing: a maximal run of two or more characters
satisfying `p` is replaced by one plain space; a lone such character is
kept as it is.  `inRun` means the current run has already been replaced. -/
def collapseGo (p : Char → Bool) : List Char → Bool → List Char
  | [], _ => []
  | c :: rest, inRun =>
    if inRun then
      if p c then collapseGo p rest true else c :: collapseGo p rest false
    else if p c then
      match rest with
      | [] => [c]
      | d :: _ => if p d then ' ' :: collapseGo p rest true
                  else c :: collapseGo p rest false
    else c :: collapseGo p rest false

/-- One full collapsing pass (`_MULTI_SPACE` with `p := isSpTab`, the
fallback `re.sub(" {2,}", " ", ...)` with `p := (· == ' ')`). -/
def collapseRuns (p : Char → Bool) (l : List Char) : List Char :=
  collapseGo p l false

/-!
### The normalizer pipeline (`normalize_spacing`) and the entry point
(`format_text_with_pangu`)
-/

/-- Passes 1 through 5 of the pipeline: the space-variant translation and
the nine deletion substitutions, in source order, before the collapse. -/
def passesBeforeCollapse (l : List Char) : List Char :=
  subAB isFullPunct isPunct
    (subAB isHalfPunct isPunct
      (subAB isPunct isCJK
        (subAB isCJK isPunct
          (subASp isOpener
            (subSpB isCloser
              (subAB isCJK isCJK
                (subSpB isPunct
                  (subASp isPunct
                    (translatePass l)))))))))

/-- The whole cleanup pipeline of `normalize_spacing` up to and including
`text.strip()` (everything the function does to a nonempty input before
handing the string to the injected spacer). -/
def corePasses (l : List Char) : List Char :=
  pyStrip (collapseRuns isSpTab (passesBeforeCollapse l))

/-- `normalize_spacing(text, pangu_spacing)`: empty input is returned
unchanged; otherwise the eleven cleanup steps run in source order and the
result of `pangu_spacing.spacing_text` on the stripped string is returned. -/
def normalize_spacing (text : List Char) (pangu_spacing : List Char → List Char) :
    List Char :=
  if text.isEmpty then text else pangu_spacing (corePasses text)

/-- `normalize_spacing` with a fallible spacer: `none` models the spacer
call raising, which the source lets propagate out of `normalize_spacing`
(only `format_text_with_pangu` catches it). -/
def normalize_spacingF (text : List Char)
    (spacing_text : List Char → Option (List Char)) : Option (List Char) :=
  if text.isEmpty then some text else spacing_text (corePasses text)

/-- The except-branch of `format_text_with_pangu`:
`raw.replace(" ", " ")`, then `re.sub(r" {2,}", " ", ...)`, then
`.strip()`. -/
def minimalCleanup (raw : List Char) : List Char :=
  pyStrip (collapseRuns (· == ' ')
    (raw.map (fun c => if c == ' ' then ' ' else c)))

/-- `format_text_with_pangu(pangu_module, raw)`: the spacer is applied to
the raw text, the result is cleaned by `normalize_spacing` (which calls
the spacer once more); if either spacer call raises, the minimal cleanup
of the raw text is returned instead. -/
def format_text_with_pangu (spacing_text : List Char → Option (List Char))
    (raw : List Char) : List Char :=
  match spacing_text raw with
  | none => minimalCleanup raw
  | some spaced =>
    match normalize_spacingF spaced spacing_text with
    | none => minimalCleanup raw
    | some final => final

/-- Modelled from the spec: the minimal-cleanup fallback as the spec words
it — "replace non-breaking/special space variants with a plain space,
collapse runs of 2+ spaces, and strip leading/trailing whitespace" — where
the special space variants are the `_SPACE_NORMALIZATION` set.  Present
only to be compared with the source fallback `minimalCleanup`. -/
def specMinimalCleanup (raw : List Char) : List Char :=
  pyStrip (collapseRuns (· == ' ') (raw.map translateChar))

/-- The identity spacer: instantiating the injected collaborator with the
identity models "no external spacer interposed". -/
def identitySpacer : List Char → List Char := fun l => l

/-- The non-whitespace projection keeps exactly the characters that Python
does not classify as whitespace. -/
def nonWS (c : Char) : Bool := !pyIsSpace c

/-- Two adjacent characters are acceptably spaced when they are not both
plain space/tab: a string whose every adjacent pair satisfies this has no
run of two or more space/tab characters. -/
def spacedApart (a b : Char) : Prop := ¬(isSpTab a = true ∧ isSpTab b = true)

/-!
### The path-resolution wrapper (`get_absolute_path`)

`pathlib.Path(s).resolve(strict=False)` interacts with the operating
system; it is therefore modelled as an injected environment function
`resolve` that either yields the absolute-path string or fails with a
message (a raised exception).  A `Path` object is identified with the
string `str(...)` renders it to, which is all the function observes of it.
-/

/-- A Python value passed as the `relative_path_input` argument: a string,
or a value of any other type (tagged with its type name). -/
inductive PyVal where
  | str : String → PyVal
  | nonStr : String → PyVal
deriving DecidableEq

/-- What `get_absolute_path` returns: a `pathlib.Path` object or its
string form. -/
inductive PathResult where
  | pathObject : String → PathResult
  | strForm : String → PathResult
deriving DecidableEq

/-- The exceptions `get_absolute_path` can raise. -/
inductive PathFailure where
  | typeError : PathFailure
  | pathConversionError : String → PathFailure
deriving DecidableEq

/-- `get_absolute_path(relative_path_input, return_path_object)`: reject a
non-string input with `TypeError` before the try block; inside the try
block convert and resolve the path (the injected `resolve`), wrapping any
failure into `PathConversionError`; return the resolved path as a `Path`
object or as its string form. -/
def get_absolute_path (resolve : String → Except String String)
    (relative_path_input : PyVal) (return_path_object : Bool) :
    Except PathFailure PathResult :=
  match relative_path_input with
  | .nonStr _ => .error .typeError
  | .str s =>
    match resolve s with
    | .error e => .error (.pathConversionError e)
    | .ok a => .ok (if return_path_object then .pathObject a else .strForm a)

/-!
### The folder comparison (`compare_two_folders`)

`os.walk` is filesystem input; it is modelled as the list of its yielded
triples — for each visited directory, the base names of its immediate
subdirectories and its files (with the sizes `os.path.getsize` reports).
-/

/-- One `os.walk` entry: (dirs, files) for one visited directory (the
`root` component is never used by the source beyond joining, so it is
omitted). -/
structure WalkEntry where
  dirs : List String
  files : List (String × Nat)

/-- The loop body of `get_size_and_files` for one walk entry. -/
def gsfStep (acc : Nat × Nat × Finset String × Finset String)
    (e : WalkEntry) : Nat × Nat × Finset String × Finset String :=
  (acc.1 + (e.files.map Prod.snd).sum,
   acc.2.1 + e.files.length,
   acc.2.2.1 ∪ (e.files.map Prod.fst).toFinset,
   acc.2.2.2 ∪ e.dirs.toFinset)

/-- `get_size_and_files(path)` on the walk of `path`: total size, file
count, the set of file base names, the set of subfolder base names. -/
def get_size_and_files (walk : List WalkEntry) :
    Nat × Nat × Finset String × Finset String :=
  walk.foldl gsfStep (0, 0, ∅, ∅)

/-- The four difference sets `get_diff_files_and_folders(path1, path2)`
computes and prints: files only under the first root, files only under the
second, subfolders only under the first, subfolders only under the second
— all by base name. -/
def get_diff_files_and_folders (walk1 walk2 : List WalkEntry) :
    Finset String × Finset String × Finset String × Finset String :=
  let r1 := get_size_and_files walk1
  let r2 := get_size_and_files walk2
  (r1.2.2.1 \ r2.2.2.1, r2.2.2.1 \ r1.2.2.1,
   r1.2.2.2 \ r2.2.2.2, r2.2.2.2 \ r1.2.2.2)

/-- All file base-name occurrences of a walk, in order (one per file, with
repetitions). -/
def allFileNames (walk : List WalkEntry) : List String :=
  walk.flatMap (fun e => e.files.map Prod.fst)

/-- All subfolder base-name occurrences of a walk. -/
def allDirNames (walk : List WalkEntry) : List String :=
  walk.flatMap (fun e => e.dirs)

/-- The total of the reported file sizes of a walk. -/
def totalWalkSize (walk : List WalkEntry) : Nat :=
  (walk.map (fun e => (e.files.map Prod.snd).sum)).sum

/-! ### Whitespace classification facts -/

theorem isSpTab_cases {c : Char} (h : isSpTab c = true) : c = ' ' ∨ c = '\t' := by
  simpa [isSpTab] using h

theorem pyIsSpace_of_isSpTab {c : Char} (h : isSpTab c = true) :
    pyIsSpace c = true := by
  rcases isSpTab_cases h with rfl | rfl <;> decide

theorem nonWS_false_of_isSpTab {c : Char} (h : isSpTab c = true) :
    nonWS c = false := by
  simp [nonWS, pyIsSpace_of_isSpTab h]

theorem translateChar_space_or_self (c : Char) :
    translateChar c = ' ' ∨ translateChar c = c := by
  unfold translateChar
  split <;> simp

theorem translateChar_eq_self {c : Char} (h : pyIsSpace c = false) :
    translateChar c = c := by
  unfold translateChar
  split
  · next hc =>
    exfalso
    have hmem : c ∈ spaceVariants := by simpa using hc
    have : pyIsSpace c = true := by fin_cases hmem <;> decide
    simp [this] at h
  · rfl

/-! ### The substitution passes only delete space/tab characters:
the sequence of non-whitespace characters is preserved. -/

theorem filter_nonWS_subASpGo (pA : Char → Bool) :
    ∀ (l : List Char) (elig : Bool),
      (subASpGo pA l elig).filter nonWS = l.filter nonWS := by
  intro l
  induction l with
  | nil => intro elig; simp [subASpGo]
  | cons c rest ih =>
    intro elig
    cases hsp : isSpTab c with
    | false => simp [subASpGo, hsp, List.filter_cons, ih]
    | true =>
      cases elig with
      | false => simp [subASpGo, hsp, List.filter_cons, ih]
      | true =>
        simp [subASpGo, hsp, List.filter_cons, nonWS_false_of_isSpTab hsp, ih]

theorem filter_nonWS_subSpBGo (pB : Char → Bool) :
    ∀ (l run : List Char), (∀ c ∈ run, isSpTab c = true) →
      (subSpBGo pB l run).filter nonWS = l.filter nonWS := by
  intro l
  induction l with
  | nil =>
    intro run hrun
    simp only [subSpBGo, List.filter_nil]
    exact List.filter_eq_nil_iff.mpr
      (fun c hc => by simp [nonWS_false_of_isSpTab (hrun c hc)])
  | cons c rest ih =>
    intro run hrun
    cases hsp : isSpTab c with
    | true =>
      have hrun' : ∀ x ∈ run ++ [c], isSpTab x = true := by
        intro x hx
        rcases List.mem_append.mp hx with hx | hx
        · exact hrun x hx
        · simp only [List.mem_singleton] at hx; subst hx; exact hsp
      simp [subSpBGo, hsp, List.filter_cons, nonWS_false_of_isSpTab hsp,
        ih (run ++ [c]) hrun']
    | false =>
      have hfil : run.filter nonWS = [] :=
        List.filter_eq_nil_iff.mpr
          (fun x hx => by simp [nonWS_false_of_isSpTab (hrun x hx)])
      cases hm : (!run.isEmpty && pB c) with
      | true => simp [subSpBGo, hsp, hm, List.filter_cons, ih [] (by simp)]
      | false =>
        simp [subSpBGo, hsp, hm, List.filter_append, hfil, List.filter_cons,
          ih [] (by simp)]

theorem filter_nonWS_subABGo (pA pB : Char → Bool) :
    ∀ (l : List Char) (elig : Bool) (run : List Char),
      (∀ c ∈ run, isSpTab c = true) →
      (subABGo pA pB l elig run).filter nonWS = l.filter nonWS := by
  intro l
  induction l with
  | nil =>
    intro elig run hrun
    simp only [subABGo, List.filter_nil]
    exact List.filter_eq_nil_iff.mpr
      (fun c hc => by simp [nonWS_false_of_isSpTab (hrun c hc)])
  | cons c rest ih =>
    intro elig run hrun
    have hfil : run.filter nonWS = [] :=
      List.filter_eq_nil_iff.mpr
        (fun x hx => by simp [nonWS_false_of_isSpTab (hrun x hx)])
    cases hsp : isSpTab c with
    | true =>
      cases elig with
      | true =>
        have hrun' : ∀ x ∈ run ++ [c], isSpTab x = true := by
          intro x hx
          rcases List.mem_append.mp hx with hx | hx
          · exact hrun x hx
          · simp only [List.mem_singleton] at hx; subst hx; exact hsp
        simp [subABGo, hsp, List.filter_cons, nonWS_false_of_isSpTab hsp,
          ih true (run ++ [c]) hrun']
      | false =>
        simp [subABGo, hsp, List.filter_append, hfil, List.filter_cons,
          nonWS_false_of_isSpTab hsp, ih false [] (by simp)]
    | false =>
      cases hm : (elig && !run.isEmpty && pB c) with
      | true =>
        simp [subABGo, hsp, hm, List.filter_cons, ih false [] (by simp)]
      | false =>
        simp [subABGo, hsp, hm, List.filter_append, hfil, List.filter_cons,
          ih (pA c) [] (by simp)]

theorem filter_nonWS_collapseGo (p : Char → Bool)
    (hp : ∀ c, p c = true → pyIsSpace c = true) (l : List Char) (inRun : Bool) :
    (collapseGo p l inRun).filter nonWS = l.filter nonWS := by
  have hws : ∀ c, p c = true → nonWS c = false := by
    intro c hc; simp [nonWS, hp c hc]
  have hspc : nonWS ' ' = false := by decide
  induction l, inRun using collapseGo.induct p with
  | case1 x => simp [collapseGo]
  | case2 c rest hc ih => simp [collapseGo, hc, List.filter_cons, hws c hc, ih]
  | case3 c rest hc ih => simp [collapseGo, hc, List.filter_cons, ih]
  | case4 c inRun hin hc => simp [collapseGo, hin, hc]
  | case5 c inRun hin hc d tail hd ih =>
    simp [collapseGo, hd, List.filter_cons, hws d hd] at ih
    simp [collapseGo, hin, hc, hd, List.filter_cons, hws c hc, hws d hd,
      hspc, ih]
  | case6 c inRun hin hc d tail hd ih =>
    simp [collapseGo, hd, List.filter_cons] at ih
    simpa [collapseGo, hin, hc, hd, List.filter_cons, hws c hc] using ih
  | case7 c rest inRun hin hc ih =>
    simp [collapseGo, hin, hc, List.filter_cons, ih]

theorem filter_nonWS_translatePass (l : List Char) :
    (translatePass l).filter nonWS = l.filter nonWS := by
  induction l with
  | nil => rfl
  | cons c rest ih =>
    cases hws : pyIsSpace c with
    | false =>
      simp [translatePass, List.filter_cons, translateChar_eq_self hws] at ih ⊢
      simp [ih, translatePass]
    | true =>
      have h1 : nonWS c = false := by simp [nonWS, hws]
      have h2 : nonWS (translateChar c) = false := by
        rcases translateChar_space_or_self c with h | h <;> rw [h]
        · decide
        · exact h1
      simp [translatePass, List.filter_cons, h1, h2] at ih ⊢
      exact ih

theorem filter_nonWS_dropWhile (l : List Char) :
    (l.dropWhile pyIsSpace).filter nonWS = l.filter nonWS := by
  induction l with
  | nil => rfl
  | cons c rest ih =>
    cases hws : pyIsSpace c with
    | false => simp [List.dropWhile_cons, hws]
    | true =>
      have h1 : nonWS c = false := by simp [nonWS, hws]
      simp [List.dropWhile_cons, hws, List.filter_cons, h1, ih]

theorem filter_nonWS_pyStrip (l : List Char) :
    (pyStrip l).filter nonWS = l.filter nonWS := by
  unfold pyStrip
  rw [List.filter_reverse, filter_nonWS_dropWhile, List.filter_reverse,
    List.reverse_reverse, filter_nonWS_dropWhile]

theorem filter_nonWS_corePasses (l : List Char) :
    (corePasses l).filter nonWS = l.filter nonWS := by
  unfold corePasses passesBeforeCollapse collapseRuns subAB subASp subSpB
  rw [filter_nonWS_pyStrip,
    filter_nonWS_collapseGo isSpTab (fun c hc => pyIsSpace_of_isSpTab hc),
    filter_nonWS_subABGo _ _ _ _ _ (by simp),
    filter_nonWS_subABGo _ _ _ _ _ (by simp),
    filter_nonWS_subABGo _ _ _ _ _ (by simp),
    filter_nonWS_subABGo _ _ _ _ _ (by simp),
    filter_nonWS_subASpGo,
    filter_nonWS_subSpBGo _ _ _ (by simp),
    filter_nonWS_subABGo _ _ _ _ _ (by simp),
    filter_nonWS_subSpBGo _ _ _ (by simp),
    filter_nonWS_subASpGo,
    filter_nonWS_translatePass]

/-- Claim C1 (character preservation): with the injected spacer taken to be
the identity — the claim's "no external spacer interposed" — the sequence
of non-whitespace characters of the output of `normalize_spacing` equals
that of the input: every pass only inserts, removes or collapses
whitespace. -/
theorem character_preservation (s : List Char) :
    (normalize_spacing s identitySpacer).filter nonWS = s.filter nonWS := by
  cases hs : s.isEmpty with
  | true =>
    have : s = [] := by simpa using hs
    subst this; rfl
  | false =>
    simp only [normalize_spacing, hs, identitySpacer, Bool.false_eq_true,
      if_false]
    exact filter_nonWS_corePasses s

/-! ### No run of two or more space/tab characters: the `Chain'` battery -/

theorem spacedApart_of_left {a b : Char} (h : isSpTab a = false) :
    spacedApart a b := by
  intro hab
  rw [hab.1] at h
  cases h

theorem spacedApart_of_right {a b : Char} (h : isSpTab b = false) :
    spacedApart a b := by
  intro hab
  rw [hab.2] at h
  cases h

theorem head?_subASpGo_false (pA : Char → Bool) (l : List Char) :
    (subASpGo pA l false).head? = l.head? := by
  cases l with
  | nil => rfl
  | cons c rest => cases hsp : isSpTab c <;> simp [subASpGo, hsp]

theorem chain'_subASpGo (pA : Char → Bool) :
    ∀ (l : List Char) (elig : Bool), l.Chain' spacedApart →
      (subASpGo pA l elig).Chain' spacedApart := by
  intro l
  induction l with
  | nil => intro elig _; simp [subASpGo]
  | cons c rest ih =>
    intro elig h
    have htail : rest.Chain' spacedApart := (List.chain'_cons'.mp h).2
    cases hsp : isSpTab c with
    | true =>
      cases elig with
      | true => simpa [subASpGo, hsp] using ih true htail
      | false =>
        simp only [subASpGo, hsp, if_true]
        refine List.chain'_cons'.mpr ⟨?_, ih false htail⟩
        intro b hb
        rw [head?_subASpGo_false] at hb
        exact (List.chain'_cons'.mp h).1 b hb
    | false =>
      simp only [subASpGo, hsp, Bool.false_eq_true, if_false]
      exact List.chain'_cons'.mpr
        ⟨fun b _ => spacedApart_of_left hsp, ih (pA c) htail⟩

theorem chain'_subSpBGo (pB : Char → Bool) :
    ∀ (l run : List Char), (run ++ l).Chain' spacedApart →
      (subSpBGo pB l run).Chain' spacedApart := by
  intro l
  induction l with
  | nil =>
    intro run h
    simpa [subSpBGo] using (by simpa using h : run.Chain' spacedApart)
  | cons c rest ih =>
    intro run h
    obtain ⟨hrun, hcr, hbound⟩ := List.chain'_append.mp h
    have htail : rest.Chain' spacedApart := (List.chain'_cons'.mp hcr).2
    have htail' : (([] : List Char) ++ rest).Chain' spacedApart := by
      simpa using htail
    cases hsp : isSpTab c with
    | true =>
      have h' : ((run ++ [c]) ++ rest).Chain' spacedApart := by
        simpa [List.append_assoc] using h
      simpa [subSpBGo, hsp] using ih (run ++ [c]) h'
    | false =>
      cases hm : (!run.isEmpty && pB c) with
      | true =>
        simp only [subSpBGo, hsp, hm, Bool.false_eq_true, if_false, if_true]
        exact List.chain'_cons'.mpr
          ⟨fun b _ => spacedApart_of_left hsp, ih [] htail'⟩
      | false =>
        simp only [subSpBGo, hsp, hm, Bool.false_eq_true, if_false]
        refine List.chain'_append.mpr ⟨hrun, ?_, ?_⟩
        · exact List.chain'_cons'.mpr
            ⟨fun b _ => spacedApart_of_left hsp, ih [] htail'⟩
        · intro x hx y hy
          simp only [List.head?_cons, Option.mem_def, Option.some.injEq] at hy
          subst hy
          exact hbound x hx c (by simp)

theorem head?_subABGo_false_nil (pA pB : Char → Bool) (l : List Char) :
    (subABGo pA pB l false []).head? = l.head? := by
  cases l with
  | nil => rfl
  | cons c rest => cases hsp : isSpTab c <;> simp [subABGo, hsp]

theorem chain'_subABGo (pA pB : Char → Bool) :
    ∀ (l : List Char) (elig : Bool) (run : List Char),
      (run ++ l).Chain' spacedApart →
      (subABGo pA pB l elig run).Chain' spacedApart := by
  intro l
  induction l with
  | nil =>
    intro elig run h
    simpa [subABGo] using (by simpa using h : run.Chain' spacedApart)
  | cons c rest ih =>
    intro elig run h
    obtain ⟨hrun, hcr, hbound⟩ := List.chain'_append.mp h
    have htail : rest.Chain' spacedApart := (List.chain'_cons'.mp hcr).2
    have htail' : (([] : List Char) ++ rest).Chain' spacedApart := by
      simpa using htail
    cases hsp : isSpTab c with
    | true =>
      cases elig with
      | true =>
        have h' : ((run ++ [c]) ++ rest).Chain' spacedApart := by
          simpa [List.append_assoc] using h
        simpa [subABGo, hsp] using ih true (run ++ [c]) h'
      | false =>
        simp only [subABGo, hsp, if_true, Bool.false_eq_true, if_false]
        refine List.chain'_append.mpr ⟨hrun, ?_, ?_⟩
        · refine List.chain'_cons'.mpr ⟨?_, ih false [] htail'⟩
          intro b hb
          rw [head?_subABGo_false_nil] at hb
          exact (List.chain'_cons'.mp hcr).1 b hb
        · intro x hx y hy
          simp only [List.head?_cons, Option.mem_def, Option.some.injEq] at hy
          subst hy
          exact hbound x hx c (by simp)
    | false =>
      cases hm : (elig && !run.isEmpty && pB c) with
      | true =>
        simp only [subABGo, hsp, hm, Bool.false_eq_true, if_false, if_true]
        exact List.chain'_cons'.mpr
          ⟨fun b _ => spacedApart_of_left hsp, ih false [] htail'⟩
      | false =>
        simp only [subABGo, hsp, hm, Bool.false_eq_true, if_false]
        refine List.chain'_append.mpr ⟨hrun, ?_, ?_⟩
        · exact List.chain'_cons'.mpr
            ⟨fun b _ => spacedApart_of_left hsp, ih (pA c) [] htail'⟩
        · intro x hx y hy
          simp only [List.head?_cons, Option.mem_def, Option.some.injEq] at hy
          subst hy
          exact hbound x hx c (by simp)

theorem chain'_collapseGo_isSpTab :
    ∀ l : List Char,
      ((collapseGo isSpTab l true).Chain' spacedApart ∧
        (∀ b ∈ (collapseGo isSpTab l true).head?, isSpTab b = false)) ∧
      ((collapseGo isSpTab l false).Chain' spacedApart ∧
        (∀ d, l.head? = some d → isSpTab d = false →
          (collapseGo isSpTab l false).head? = some d)) := by
  intro l
  induction l with
  | nil => simp [collapseGo]
  | cons c rest ih =>
    obtain ⟨⟨ihT, ihTh⟩, ⟨ihF, ihFh⟩⟩ := ih
    constructor
    · cases hc : isSpTab c with
      | true =>
        constructor
        · simpa [collapseGo, hc] using ihT
        · simpa [collapseGo, hc] using ihTh
      | false =>
        constructor
        · simp only [collapseGo, hc, Bool.false_eq_true, if_false, if_true]
          exact List.chain'_cons'.mpr
            ⟨fun b _ => spacedApart_of_left hc, ihF⟩
        · simp [collapseGo, hc]
    · cases hc : isSpTab c with
      | false =>
        constructor
        · simp only [collapseGo, hc, Bool.false_eq_true, if_false]
          exact List.chain'_cons'.mpr
            ⟨fun b _ => spacedApart_of_left hc, ihF⟩
        · intro d hd _
          simp only [List.head?_cons, Option.some.injEq] at hd
          subst hd
          simp [collapseGo, hc]
      | true =>
        cases rest with
        | nil =>
          constructor
          · simp [collapseGo, hc]
          · intro d hd hdf
            simp only [List.head?_cons, Option.some.injEq] at hd
            subst hd
            rw [hc] at hdf
            cases hdf
        | cons e r =>
          cases he : isSpTab e with
          | true =>
            constructor
            · simp only [collapseGo, hc, he, Bool.false_eq_true, if_false,
                if_true]
              simp only [collapseGo, he, if_true] at ihT ihTh
              exact List.chain'_cons'.mpr
                ⟨fun b hb => spacedApart_of_right (ihTh b hb), ihT⟩
            · intro d hd hdf
              simp only [List.head?_cons, Option.some.injEq] at hd
              subst hd
              rw [hc] at hdf
              cases hdf
          | false =>
            constructor
            · simp only [collapseGo, hc, he, Bool.false_eq_true, if_false,
                if_true]
              simp only [collapseGo, he, Bool.false_eq_true, if_false] at ihF
              refine List.chain'_cons'.mpr ⟨?_, ihF⟩
              intro b hb
              simp only [List.head?_cons, Option.mem_def,
                Option.some.injEq] at hb
              subst hb
              exact spacedApart_of_right he
            · intro d hd hdf
              simp only [List.head?_cons, Option.some.injEq] at hd
              subst hd
              rw [hc] at hdf
              cases hdf

theorem chain'_collapseRuns (l : List Char) :
    (collapseRuns isSpTab l).Chain' spacedApart :=
  (chain'_collapseGo_isSpTab l).2.1

theorem chain'_dropWhile (q : Char → Bool) :
    ∀ l : List Char, l.Chain' spacedApart →
      (l.dropWhile q).Chain' spacedApart := by
  intro l
  induction l with
  | nil => intro _; simp
  | cons c rest ih =>
    intro h
    cases hq : q c with
    | true => simpa [List.dropWhile_cons, hq] using ih (List.chain'_cons'.mp h).2
    | false => simpa [List.dropWhile_cons, hq] using h

theorem chain'_reverse_spacedApart {l : List Char}
    (h : l.Chain' spacedApart) : l.reverse.Chain' spacedApart := by
  rw [List.chain'_reverse]
  exact h.imp (fun a b hab => fun hba => hab ⟨hba.2, hba.1⟩)

theorem chain'_pyStrip {l : List Char} (h : l.Chain' spacedApart) :
    (pyStrip l).Chain' spacedApart := by
  unfold pyStrip
  exact chain'_reverse_spacedApart
    (chain'_dropWhile _ _ (chain'_reverse_spacedApart (chain'_dropWhile _ _ h)))

theorem chain'_corePasses (l : List Char) :
    (corePasses l).Chain' spacedApart :=
  chain'_pyStrip (chain'_collapseRuns _)

theorem chain'_normalize_id (s : List Char) :
    (normalize_spacing s identitySpacer).Chain' spacedApart := by
  cases hs : s.isEmpty with
  | true =>
    have : s = [] := by simpa using hs
    subst this; simp [normalize_spacing]
  | false =>
    simp only [normalize_spacing, hs, identitySpacer, Bool.false_eq_true,
      if_false]
    exact chain'_corePasses s

/-- Claim C6 (no double space): with the injected spacer taken to be the
identity, the output of `normalize_spacing` never has two adjacent plain
space/tab characters — no run of two or more of them — and the collapse
pass itself already guarantees this on any intermediate string. -/
theorem no_double_space (s : List Char) :
    (normalize_spacing s identitySpacer).Chain' spacedApart ∧
    (collapseRuns isSpTab s).Chain' spacedApart :=
  ⟨chain'_normalize_id s, chain'_collapseRuns s⟩

/-! ### No leading or trailing whitespace -/

theorem head?_dropWhile_false (q : Char → Bool) :
    ∀ (l : List Char) (c : Char), (l.dropWhile q).head? = some c →
      q c = false := by
  intro l
  induction l with
  | nil => intro c h; cases h
  | cons a rest ih =>
    intro c h
    cases hq : q a with
    | true =>
      rw [List.dropWhile_cons, if_pos (by simp [hq])] at h
      exact ih c h
    | false =>
      rw [List.dropWhile_cons, if_neg (by simp [hq])] at h
      simp only [List.head?_cons, Option.some.injEq] at h
      subst h
      exact hq

theorem getLast?_dropWhile (q : Char → Bool) (l : List Char) {c : Char}
    (h : (l.dropWhile q).getLast? = some c) : l.getLast? = some c := by
  obtain ⟨t, ht⟩ := List.dropWhile_suffix (l := l) q
  rw [← ht, List.getLast?_append, h]
  rfl

theorem pyStrip_head {l : List Char} {c : Char}
    (h : (pyStrip l).head? = some c) : pyIsSpace c = false := by
  unfold pyStrip at h
  rw [List.head?_reverse] at h
  have h2 := getLast?_dropWhile pyIsSpace _ h
  rw [List.getLast?_reverse] at h2
  exact head?_dropWhile_false pyIsSpace l c h2

theorem pyStrip_last {l : List Char} {c : Char}
    (h : (pyStrip l).getLast? = some c) : pyIsSpace c = false := by
  unfold pyStrip at h
  rw [List.getLast?_reverse] at h
  exact head?_dropWhile_false pyIsSpace _ c h

/-- Claim C5 (no edge whitespace): with the injected spacer taken to be
the identity, the output of `normalize_spacing` has neither leading nor
trailing whitespace: its first and last characters, when they exist, are
not Python whitespace. -/
theorem no_edge_whitespace (s : List Char) :
    (∀ c, (normalize_spacing s identitySpacer).head? = some c →
      pyIsSpace c = false) ∧
    (∀ c, (normalize_spacing s identitySpacer).getLast? = some c →
      pyIsSpace c = false) := by
  cases hs : s.isEmpty with
  | true =>
    have : s = [] := by simpa using hs
    subst this
    exact ⟨fun c h => Option.noConfusion h, fun c h => Option.noConfusion h⟩
  | false =>
    have hne : normalize_spacing s identitySpacer = corePasses s := by
      simp [normalize_spacing, hs, identitySpacer]
    rw [hne]
    unfold corePasses
    exact ⟨fun c h => pyStrip_head h, fun c h => pyStrip_last h⟩

theorem no_edge_whitespace_witness : pyIsSpace 'a' = false :=
  (no_edge_whitespace [' ', 'a', ' ']).1 'a' (by decide)

/-! ### Where the spacer is called, and the order of the passes -/

/-- Claim C2 as stated is false: `normalize_spacing` does call the injected
spacer (line 174 of the source), so two different spacers can produce two
different results on the same text. -/
theorem spacer_independence_cex :
    normalize_spacing ['a'] identitySpacer ≠
      normalize_spacing ['a'] (fun l => l ++ ['X']) := by decide

/-- Claim C2 (amended): the core does call the injected spacer — exactly
once, as its final step, on the cleaned and stripped pipeline output — so
its result depends on the spacer only through the spacer's value at that
single string: any two spacers that agree there produce the same result. -/
theorem spacer_dependence_only_through_core (t : List Char)
    (f g : List Char → List Char)
    (h : f (corePasses t) = g (corePasses t)) :
    normalize_spacing t f = normalize_spacing t g := by
  unfold normalize_spacing
  cases ht : t.isEmpty <;> simp [h]

theorem spacer_dependence_only_through_core_witness :
    normalize_spacing ['a'] identitySpacer =
      normalize_spacing ['a'] (fun l => if l.isEmpty then ['X'] else l) :=
  spacer_dependence_only_through_core ['a'] _ _ (by decide)

/-- Claim C3 as stated is false: the trimmed string is not the returned
value — the source applies the injected spacer to the trimmed string and
returns the spacer's result. -/
theorem pass_order_cex :
    normalize_spacing ['a'] (fun l => l ++ ['X']) ≠
      pyStrip (collapseRuns isSpTab (passesBeforeCollapse ['a'])) := by decide

/-- Claim C3 (amended): on nonempty input the passes run in the fixed
source order — space-variant unification, punctuation-adjacent space
removal, CJK–CJK gap removal, bracket/quote interior trimming,
cross-script punctuation gap removal, whitespace collapse, trim — with the
collapse after all deletion passes and the trim the last cleanup step; the
returned value is the injected spacer applied to the trimmed string. -/
theorem pass_order (s : List Char) (f : List Char → List Char)
    (hs : s ≠ []) :
    normalize_spacing s f =
      f (pyStrip
        (collapseRuns isSpTab
          (subAB isFullPunct isPunct
            (subAB isHalfPunct isPunct
              (subAB isPunct isCJK
                (subAB isCJK isPunct
                  (subASp isOpener
                    (subSpB isCloser
                      (subAB isCJK isCJK
                        (subSpB isPunct
                          (subASp isPunct
                            (translatePass s)))))))))))) := by
  have he : s.isEmpty = false := by simpa using hs
  simp [normalize_spacing, he, corePasses, passesBeforeCollapse]

theorem pass_order_witness :
    normalize_spacing ['a'] identitySpacer =
      identitySpacer (pyStrip
        (collapseRuns isSpTab
          (subAB isFullPunct isPunct
            (subAB isHalfPunct isPunct
              (subAB isPunct isCJK
                (subAB isCJK isPunct
                  (subASp isOpener
                    (subSpB isCloser
                      (subAB isCJK isCJK
                        (subSpB isPunct
                          (subASp isPunct
                            (translatePass ['a'])))))))))))) :=
  pass_order ['a'] identitySpacer (by decide)

/-! ### The fallback of the entry point -/

/-- Claim C4 as stated is false: on a spacer failure the fallback replaces
only the no-break space U+00A0, not the other special space variants — on
input `a`, U+3000, U+3000, `b` the code returns the input unchanged while
the claimed fallback would produce `a b`. -/
theorem fallback_cleanup_cex :
    format_text_with_pangu (fun _ => none) ['a', '　', '　', 'b'] ≠
      specMinimalCleanup ['a', '　', '　', 'b'] := by decide

/-- Claim C4 (amended): `format_text_with_pangu` never propagates a
spacer failure: if either spacer call fails (the initial one on the raw
text, or the one `normalize_spacing` makes on the cleaned nonempty text),
the result is the minimal cleanup of the original input, which replaces
the no-break space U+00A0 with a plain space, collapses runs of 2+ plain
spaces, and strips leading/trailing whitespace. -/
theorem fallback_on_spacer_failure (f : List Char → Option (List Char))
    (raw : List Char) :
    (f raw = none → format_text_with_pangu f raw = minimalCleanup raw) ∧
    (∀ spaced, f raw = some spaced → spaced ≠ [] →
      f (corePasses spaced) = none →
      format_text_with_pangu f raw = minimalCleanup raw) ∧
    minimalCleanup raw =
      pyStrip (collapseRuns (· == ' ')
        (raw.map (fun c => if c == ' ' then ' ' else c))) := by
  refine ⟨?_, ?_, rfl⟩
  · intro h
    simp [format_text_with_pangu, h]
  · intro spaced h1 h2 h3
    have he : spaced.isEmpty = false := by simpa using h2
    simp [format_text_with_pangu, h1, normalize_spacingF, he, h3]

theorem fallback_on_spacer_failure_witness :
    format_text_with_pangu (fun _ => none) ['a'] = minimalCleanup ['a'] :=
  (fallback_on_spacer_failure (fun _ => none) ['a']).1 rfl

/-! ### Space-variant unification -/

/-- Claim C7 as stated is false: the paragraph separator U+2029 is absent
from the translation table, so it is not translated to a plain space (the
line separator U+2028 is; U+2029 is genuinely a whitespace code point, so
the claim's "line and paragraph separators" does not hold of the code). -/
theorem space_variant_cex :
    translateChar ' ' = ' ' ∧ (' ' : Char) ≠ ' ' ∧
      pyIsSpace ' ' = true := by decide

/-- Claim C7 (amended): the space-variant unification pass translates each
code point of the table — no-break space, en/em and other typographic
spaces, thin spaces, Ogham space mark, the line separator (but not the
paragraph separator U+2029), narrow no-break space, medium mathematical
space and the ideographic space — to a plain space, so alternate space
code points surrounding ordinary words become single plain spaces. -/
theorem space_variant_unification :
    (∀ c ∈ spaceVariants, translateChar c = ' ') ∧
    normalize_spacing ['a', 'b', ' ', '　', 'c', 'd'] identitySpacer =
      ['a', 'b', ' ', 'c', 'd'] := by
  constructor
  · intro c hc
    fin_cases hc <;> decide
  · decide

theorem space_variant_unification_witness : translateChar '　' = ' ' :=
  space_variant_unification.1 '　' (by decide)

/-! ### A second application collapses no further whitespace -/

theorem mem_subASpGo (pA : Char → Bool) :
    ∀ (l : List Char) (elig : Bool) (x : Char),
      x ∈ subASpGo pA l elig → x ∈ l := by
  intro l
  induction l with
  | nil => intro elig x h; simp [subASpGo] at h
  | cons c rest ih =>
    intro elig x h
    cases hsp : isSpTab c with
    | true =>
      cases elig with
      | true =>
        simp only [subASpGo, hsp, if_true] at h
        exact List.mem_cons_of_mem c (ih true x h)
      | false =>
        simp only [subASpGo, hsp, if_true, Bool.false_eq_true,
          if_false] at h
        rcases List.mem_cons.mp h with rfl | h
        · exact List.mem_cons_self _ _
        · exact List.mem_cons_of_mem c (ih false x h)
    | false =>
      simp only [subASpGo, hsp, Bool.false_eq_true, if_false] at h
      rcases List.mem_cons.mp h with rfl | h
      · exact List.mem_cons_self _ _
      · exact List.mem_cons_of_mem c (ih (pA c) x h)

theorem mem_subSpBGo (pB : Char → Bool) :
    ∀ (l run : List Char) (x : Char),
      x ∈ subSpBGo pB l run → x ∈ run ∨ x ∈ l := by
  intro l
  induction l with
  | nil => intro run x h; simp only [subSpBGo] at h; exact Or.inl h
  | cons c rest ih =>
    intro run x h
    cases hsp : isSpTab c with
    | true =>
      simp only [subSpBGo, hsp, if_true] at h
      rcases ih (run ++ [c]) x h with h | h
      · rcases List.mem_append.mp h with h | h
        · exact Or.inl h
        · simp only [List.mem_singleton] at h; subst h
          exact Or.inr (List.mem_cons_self _ _)
      · exact Or.inr (List.mem_cons_of_mem c h)
    | false =>
      cases hm : (!run.isEmpty && pB c) with
      | true =>
        simp only [subSpBGo, hsp, hm, Bool.false_eq_true, if_false,
          if_true] at h
        rcases List.mem_cons.mp h with rfl | h
        · exact Or.inr (List.mem_cons_self _ _)
        · rcases ih [] x h with h | h
          · simp at h
          · exact Or.inr (List.mem_cons_of_mem c h)
      | false =>
        simp only [subSpBGo, hsp, hm, Bool.false_eq_true, if_false] at h
        rcases List.mem_append.mp h with h | h
        · exact Or.inl h
        · rcases List.mem_cons.mp h with rfl | h
          · exact Or.inr (List.mem_cons_self _ _)
          · rcases ih [] x h with h | h
            · simp at h
            · exact Or.inr (List.mem_cons_of_mem c h)

theorem mem_subABGo (pA pB : Char → Bool) :
    ∀ (l : List Char) (elig : Bool) (run : List Char) (x : Char),
      x ∈ subABGo pA pB l elig run → x ∈ run ∨ x ∈ l := by
  intro l
  induction l with
  | nil => intro elig run x h; simp only [subABGo] at h; exact Or.inl h
  | cons c rest ih =>
    intro elig run x h
    cases hsp : isSpTab c with
    | true =>
      cases elig with
      | true =>
        simp only [subABGo, hsp, if_true] at h
        rcases ih true (run ++ [c]) x h with h | h
        · rcases List.mem_append.mp h with h | h
          · exact Or.inl h
          · simp only [List.mem_singleton] at h; subst h
            exact Or.inr (List.mem_cons_self _ _)
        · exact Or.inr (List.mem_cons_of_mem c h)
      | false =>
        simp only [subABGo, hsp, if_true, Bool.false_eq_true,
          if_false] at h
        rcases List.mem_append.mp h with h | h
        · exact Or.inl h
        · rcases List.mem_cons.mp h with rfl | h
          · exact Or.inr (List.mem_cons_self _ _)
          · rcases ih false [] x h with h | h
            · simp at h
            · exact Or.inr (List.mem_cons_of_mem c h)
    | false =>
      cases hm : (elig && !run.isEmpty && pB c) with
      | true =>
        simp only [subABGo, hsp, hm, Bool.false_eq_true, if_false,
          if_true] at h
        rcases List.mem_cons.mp h with rfl | h
        · exact Or.inr (List.mem_cons_self _ _)
        · rcases ih false [] x h with h | h
          · simp at h
          · exact Or.inr (List.mem_cons_of_mem c h)
      | false =>
        simp only [subABGo, hsp, hm, Bool.false_eq_true, if_false] at h
        rcases List.mem_append.mp h with h | h
        · exact Or.inl h
        · rcases List.mem_cons.mp h with rfl | h
          · exact Or.inr (List.mem_cons_self _ _)
          · rcases ih (pA c) [] x h with h | h
            · simp at h
            · exact Or.inr (List.mem_cons_of_mem c h)

theorem mem_collapseGo (p : Char → Bool) :
    ∀ (l : List Char) (inRun : Bool) (x : Char),
      x ∈ collapseGo p l inRun → x ∈ l ∨ x = ' ' := by
  intro l inRun
  induction l, inRun using collapseGo.induct p with
  | case1 b => intro x h; simp [collapseGo] at h
  | case2 c rest hc ih =>
    intro x h
    simp only [collapseGo, hc, if_true] at h
    rcases ih x h with h | h
    · exact Or.inl (List.mem_cons_of_mem c h)
    · exact Or.inr h
  | case3 c rest hc ih =>
    intro x h
    simp only [collapseGo, hc, if_true, if_false] at h
    rcases List.mem_cons.mp h with rfl | h
    · exact Or.inl (List.mem_cons_self _ _)
    · rcases ih x h with h | h
      · exact Or.inl (List.mem_cons_of_mem c h)
      · exact Or.inr h
  | case4 c inRun hin hc =>
    intro x h
    simp only [collapseGo, hin, hc, if_true, if_false] at h
    rcases List.mem_cons.mp h with rfl | h
    · exact Or.inl (List.mem_cons_self _ _)
    · simp at h
  | case5 c inRun hin hc d tail hd ih =>
    intro x h
    simp only [collapseGo, hd, if_true] at ih
    simp only [collapseGo, hin, hc, hd, if_true, if_false] at h
    rcases List.mem_cons.mp h with rfl | h
    · exact Or.inr rfl
    · rcases ih x h with h | h
      · exact Or.inl (List.mem_cons_of_mem c h)
      · exact Or.inr h
  | case6 c inRun hin hc d tail hd ih =>
    intro x h
    simp only [collapseGo, hd, if_true, if_false] at ih
    simp only [collapseGo, hin, hc, hd, if_true, if_false] at h
    rcases List.mem_cons.mp h with rfl | h
    · exact Or.inl (List.mem_cons_self _ _)
    · rcases ih x h with h | h
      · exact Or.inl (List.mem_cons_of_mem c h)
      · exact Or.inr h
  | case7 c rest inRun hin hc ih =>
    intro x h
    simp only [collapseGo, hin, hc, if_true, if_false] at h
    rcases List.mem_cons.mp h with rfl | h
    · exact Or.inl (List.mem_cons_self _ _)
    · rcases ih x h with h | h
      · exact Or.inl (List.mem_cons_of_mem c h)
      · exact Or.inr h

theorem mem_subASp {pA : Char → Bool} {l : List Char} {x : Char}
    (h : x ∈ subASp pA l) : x ∈ l :=
  mem_subASpGo pA l false x h

theorem mem_subSpB {pB : Char → Bool} {l : List Char} {x : Char}
    (h : x ∈ subSpB pB l) : x ∈ l := by
  rcases mem_subSpBGo pB l [] x h with h | h
  · simp at h
  · exact h

theorem mem_subAB {pA pB : Char → Bool} {l : List Char} {x : Char}
    (h : x ∈ subAB pA pB l) : x ∈ l := by
  rcases mem_subABGo pA pB l false [] x h with h | h
  · simp at h
  · exact h

theorem mem_collapseRuns {p : Char → Bool} {l : List Char} {x : Char}
    (h : x ∈ collapseRuns p l) : x ∈ l ∨ x = ' ' :=
  mem_collapseGo p l false x h

theorem mem_pyStrip {l : List Char} {x : Char} (h : x ∈ pyStrip l) :
    x ∈ l := by
  unfold pyStrip at h
  rw [List.mem_reverse] at h
  have h1 := (List.dropWhile_sublist _).subset h
  rw [List.mem_reverse] at h1
  exact (List.dropWhile_sublist _).subset h1

theorem translateChar_idem (c : Char) :
    translateChar (translateChar c) = translateChar c := by
  rcases translateChar_space_or_self c with h | h
  · rw [h]; decide
  · rw [h]; exact h

theorem translatePass_eq_self {l : List Char}
    (h : ∀ x ∈ l, translateChar x = x) : translatePass l = l := by
  unfold translatePass
  conv_rhs => rw [← List.map_id l]
  exact List.map_congr_left h

theorem corePasses_fixed (l : List Char) :
    ∀ x ∈ corePasses l, translateChar x = x := by
  intro x hx
  unfold corePasses at hx
  have h1 := mem_pyStrip hx
  rcases mem_collapseRuns h1 with h2 | rfl
  · unfold passesBeforeCollapse at h2
    have h3 := mem_subAB h2
    have h4 := mem_subAB h3
    have h5 := mem_subAB h4
    have h6 := mem_subAB h5
    have h7 := mem_subASp h6
    have h8 := mem_subSpB h7
    have h9 := mem_subAB h8
    have h10 := mem_subSpB h9
    have h11 := mem_subASp h10
    unfold translatePass at h11
    rcases List.mem_map.mp h11 with ⟨y, _, rfl⟩
    exact translateChar_idem y
  · decide

theorem normalize_fixed (s : List Char) :
    ∀ x ∈ normalize_spacing s identitySpacer, translateChar x = x := by
  cases hs : s.isEmpty with
  | true =>
    have : s = [] := by simpa using hs
    subst this
    intro x hx
    simp [normalize_spacing] at hx
  | false =>
    simp only [normalize_spacing, hs, identitySpacer, Bool.false_eq_true,
      if_false]
    exact corePasses_fixed s

theorem collapseGo_eq_self :
    ∀ l : List Char, l.Chain' spacedApart →
      collapseGo isSpTab l false = l := by
  intro l
  induction l with
  | nil => intro _; rfl
  | cons c rest ih =>
    intro h
    have htail := (List.chain'_cons'.mp h).2
    cases hc : isSpTab c with
    | false =>
      rw [show collapseGo isSpTab (c :: rest) false
          = c :: collapseGo isSpTab rest false from by
        simp [collapseGo, hc], ih htail]
    | true =>
      cases rest with
      | nil => simp [collapseGo, hc]
      | cons d r =>
        have hd : isSpTab d = false := by
          have hpair := (List.chain'_cons'.mp h).1 d (by simp)
          cases hdd : isSpTab d with
          | false => rfl
          | true => exact absurd ⟨hc, hdd⟩ hpair
        rw [show collapseGo isSpTab (c :: d :: r) false
            = c :: collapseGo isSpTab (d :: r) false from by
          simp [collapseGo, hc, hd], ih htail]

theorem chain'_passesBeforeCollapse {l : List Char}
    (hfix : ∀ x ∈ l, translateChar x = x)
    (h : l.Chain' spacedApart) :
    (passesBeforeCollapse l).Chain' spacedApart := by
  have h1 : (translatePass l).Chain' spacedApart := by
    rw [translatePass_eq_self hfix]; exact h
  have h2 := chain'_subASpGo isPunct _ false h1
  have h3 := chain'_subSpBGo isPunct _ [] (by simpa using h2)
  have h4 := chain'_subABGo isCJK isCJK _ false [] (by simpa using h3)
  have h5 := chain'_subSpBGo isCloser _ [] (by simpa using h4)
  have h6 := chain'_subASpGo isOpener _ false h5
  have h7 := chain'_subABGo isCJK isPunct _ false [] (by simpa using h6)
  have h8 := chain'_subABGo isPunct isCJK _ false [] (by simpa using h7)
  have h9 := chain'_subABGo isHalfPunct isPunct _ false [] (by simpa using h8)
  have h10 := chain'_subABGo isFullPunct isPunct _ false []
    (by simpa using h9)
  unfold passesBeforeCollapse subAB subASp subSpB
  exact h10

/-- Claim C8 (idempotence-adjacent): with the injected spacer taken to be
the identity, applying `normalize_spacing` a second time collapses no
further whitespace: on the output of the first application, the second
application's collapse pass — run, as in the source, after the
space-variant translation and all nine deletion passes — is the identity,
because the first output contains no double space (second conjunct) and
the deletion passes cannot create one. -/
theorem second_application_collapses_nothing (s : List Char) :
    collapseRuns isSpTab
        (passesBeforeCollapse (normalize_spacing s identitySpacer)) =
      passesBeforeCollapse (normalize_spacing s identitySpacer) ∧
    (normalize_spacing s identitySpacer).Chain' spacedApart := by
  have hch := chain'_normalize_id s
  refine ⟨?_, hch⟩
  have hpre := chain'_passesBeforeCollapse (normalize_fixed s) hch
  unfold collapseRuns
  exact collapseGo_eq_self _ hpre

/-! ### The path-resolution contract -/

/-- Claim C9: `get_absolute_path` raises `TypeError` exactly when its
input is not a string; for a string input it returns the resolved path
(the injected `resolve` stands for `Path(s).resolve(strict=False)`,
filesystem interaction included) as a `Path` object when
`return_path_object` is true and as the string form of the same path
otherwise; any exception during conversion or resolution is re-raised as
`PathConversionError`, never propagated raw. -/
theorem get_absolute_path_contract
    (resolve : String → Except String String) (v : PyVal) (rpo : Bool) :
    (get_absolute_path resolve v rpo = .error .typeError ↔
      ∀ s, v ≠ PyVal.str s) ∧
    (∀ s p, v = PyVal.str s → resolve s = .ok p →
      get_absolute_path resolve v rpo =
        .ok (if rpo then .pathObject p else .strForm p)) ∧
    (∀ s e, v = PyVal.str s → resolve s = .error e →
      get_absolute_path resolve v rpo =
        .error (.pathConversionError e)) := by
  refine ⟨⟨?_, ?_⟩, ?_, ?_⟩
  · intro h s hs
    subst hs
    cases hr : resolve s with
    | ok p => simp [get_absolute_path, hr] at h
    | error e => simp [get_absolute_path, hr] at h
  · intro h
    cases v with
    | str s => exact absurd rfl (h s)
    | nonStr t => rfl
  · intro s p hv hr
    subst hv
    simp [get_absolute_path, hr]
  · intro s e hv hr
    subst hv
    simp [get_absolute_path, hr]

theorem get_absolute_path_contract_witness :
    get_absolute_path (fun _ => .ok "/abs") (.str "x") true =
      .ok (.pathObject "/abs") := by
  have h := (get_absolute_path_contract (fun _ => .ok "/abs")
    (.str "x") true).2.1 "x" "/abs" rfl rfl
  simpa using h

/-! ### The folder comparison works on bare base names -/

theorem gsf_foldl :
    ∀ (walk : List WalkEntry) (a b : Nat) (s t : Finset String),
      walk.foldl gsfStep (a, b, s, t) =
        (a + totalWalkSize walk,
         b + (allFileNames walk).length,
         s ∪ (allFileNames walk).toFinset,
         t ∪ (allDirNames walk).toFinset) := by
  intro walk
  induction walk with
  | nil => intro a b s t; simp [totalWalkSize, allFileNames, allDirNames]
  | cons e rest ih =>
    intro a b s t
    simp only [List.foldl_cons, gsfStep]
    rw [ih]
    simp [totalWalkSize, allFileNames, allDirNames, List.flatMap_cons,
      List.toFinset_append, Finset.union_assoc, Nat.add_assoc,
      List.length_append]

theorem get_size_and_files_eq (walk : List WalkEntry) :
    get_size_and_files walk =
      (totalWalkSize walk, (allFileNames walk).length,
       (allFileNames walk).toFinset, (allDirNames walk).toFinset) := by
  unfold get_size_and_files
  rw [gsf_foldl]
  simp

/-- Claim C10: the folder comparison operates on bare base names — the
file and subfolder sets of `get_size_and_files` hold base names with
repeated names represented once while `file_count` counts each occurrence
(so the set's size is at most the count), and a name is reported by
`get_diff_files_and_folders` as a file (resp. subfolder) difference
exactly when it occurs as a file (resp. subfolder) base name somewhere
under one root and nowhere under the other. -/
theorem folder_diff_by_base_name (walk1 walk2 : List WalkEntry) :
    ((get_size_and_files walk1).2.2.1.card ≤ (get_size_and_files walk1).2.1) ∧
    ((get_size_and_files walk1).2.1 = (allFileNames walk1).length ∧
      (get_size_and_files walk1).2.2.1 = (allFileNames walk1).toFinset) ∧
    (∀ name : String,
      name ∈ (get_diff_files_and_folders walk1 walk2).1 ↔
        name ∈ allFileNames walk1 ∧ name ∉ allFileNames walk2) ∧
    (∀ name : String,
      name ∈ (get_diff_files_and_folders walk1 walk2).2.2.1 ↔
        name ∈ allDirNames walk1 ∧ name ∉ allDirNames walk2) := by
  have h1 := get_size_and_files_eq walk1
  have h2 := get_size_and_files_eq walk2
  refine ⟨?_, ⟨?_, ?_⟩, ?_, ?_⟩
  · rw [h1]
    simpa using List.toFinset_card_le (allFileNames walk1)
  · rw [h1]
  · rw [h1]
  · intro name
    simp [get_diff_files_and_folders, h1, h2, Finset.mem_sdiff,
      List.mem_toFinset]
  · intro name
    simp [get_diff_files_and_folders, h1, h2, Finset.mem_sdiff,
      List.mem_toFinset]

theorem folder_diff_by_base_name_witness :
    "f" ∈ (get_diff_files_and_folders
      [⟨["sub"], [("f", 3), ("g", 1)]⟩, ⟨[], [("f", 2)]⟩]
      [⟨[], [("g", 5)]⟩]).1 :=
  ((folder_diff_by_base_name _ _).2.2.1 "f").mpr ⟨by decide, by decide⟩

end VibeWorking
